import Mathlib

/-!
Verification development for the VWAPForecast repository
(`src/DataCollection.py`).

The script downloads intraday OHLCV bars (one pandas DataFrame per symbol
and date), enriches them with derived feature columns (`compute_features`),
and writes per-year CSV chunks (`process_symbol`).  This file gives a
shallow embedding of that code:

* a pandas DataFrame of bars is a `List Bar` (frame order = list order);
* machine floats are idealised as `ℚ` (exact arithmetic); a float `NaN`
  in a derived column is an `Option _` that is `none`;
* the pandas group-by operations (`cumsum`, `pct_change`,
  `transform(expanding().std())`, `transform('first')`) are per-row
  functions of the row's group prefix (the earlier rows of the frame with
  the same `(symbol, date)` key), which is exactly their semantics;
* `sort_values(['symbol', 'timestamp'])` is a merge sort on the
  lexicographic `(symbol, timestamp)` order (the embedding fixes the
  stable order among exact ties, which pandas leaves unspecified);
* `dropna()` keeps the rows whose derived columns are all defined;
* the div-by-zero behaviour of floats is modelled as in pandas: `0/0`
  is `NaN` (here: `none`), while `x/0` for `x ≠ 0` is `±inf`, a *defined*
  value that `dropna` does not remove (here it is represented by the
  total `ℚ` division, whose junk value at `0` is likewise defined).
-/

namespace DataCollection

/-- Milliseconds per calendar day (`pd.to_datetime(df["t"], unit="ms")`
keeps absolute instants; `dt.date` truncates to days since the epoch). -/
def msPerDay : ℕ := 86400000

/-- `df["date"] = df["timestamp"].dt.date`, with a calendar date encoded
as its day count since 1970-01-01. -/
def dateOfTs (t : ℕ) : ℕ := t / msPerDay

/-- `df["time"] = df["timestamp"].dt.time`, encoded as milliseconds past
midnight. -/
def timeOfTs (t : ℕ) : ℕ := t % msPerDay

/-- `df["hour"] = df["timestamp"].dt.hour + df["timestamp"].dt.minute / 60`. -/
def hourOfTs (t : ℕ) : ℚ := (t / 3600000 % 24 : ℕ) + ((t / 60000 % 60 : ℕ) : ℚ) / 60

/-- `df["day_of_week"] = df["timestamp"].dt.weekday` (0 = Monday);
1970-01-01 was a Thursday (weekday 3). -/
def weekdayOfTs (t : ℕ) : ℕ := (t / msPerDay + 3) % 7

/-- One row of the frame returned by `get_intraday_ohlcv`: the columns
`["symbol", "timestamp", "date", "time", "hour", "day_of_week", "open",
"high", "low", "close", "volume"]` (line 106).  The price column `open`
is called `open_price` here because `open` is a Lean keyword. -/
structure Bar where
  symbol : String
  timestamp : ℕ
  date : ℕ
  time : ℕ
  hour : ℚ
  day_of_week : ℕ
  open_price : ℚ
  high : ℚ
  low : ℚ
  close : ℚ
  volume : ℚ
deriving DecidableEq, Repr

/-- Row construction in `get_intraday_ohlcv` (lines 99-105): every
derived column is computed from the raw timestamp `t` (ms since epoch). -/
def mkBar (symbol : String) (t : ℕ) (o h l c v : ℚ) : Bar :=
  { symbol := symbol, timestamp := t, date := dateOfTs t, time := timeOfTs t,
    hour := hourOfTs t, day_of_week := weekdayOfTs t,
    open_price := o, high := h, low := l, close := c, volume := v }

/-- The group-by key `['symbol', 'date']` used throughout
`compute_features`. -/
def barKey (b : Bar) : String × ℕ := (b.symbol, b.date)

/-- The comparison used by `df.sort_values(['symbol', 'timestamp'])`:
lexicographic on symbol, then timestamp. -/
def barLE (a b : Bar) : Bool :=
  decide (a.symbol < b.symbol) || (decide (a.symbol = b.symbol) && decide (a.timestamp ≤ b.timestamp))

/-- `df.sort_values(['symbol', 'timestamp'], inplace=True)` (line 110). -/
def sortBars (df : List Bar) : List Bar := df.mergeSort barLE

/-- `compute_features` sorts its argument frame *in place* (line 110), so
after the call the caller's frame holds the rows in sorted order (and, in
addition, all the appended feature columns, which this bar-level
projection does not show).  This definition models the state of the input
frame's bar columns after the call. -/
def compute_features_input_after (df : List Bar) : List Bar := sortBars df

/-- `Series.pct_change` between a previous close `p` and a current close
`c`: `(c - p) / p`.  In floats `0/0` is `NaN` (modelled as `none`), and
`x/0` with `x ≠ 0` is `±inf`, a defined value (modelled by total `ℚ`
division). -/
def pctChange (p c : ℚ) : Option ℚ :=
  if p = 0 ∧ c = 0 then none else some ((c - p) / p)

/-- The `price_return` of a bar `b` whose in-group predecessors are
`gprev` (in frame order): the pct-change against the last of them, `NaN`
(`none`) when the bar is first in its group. -/
def retStep (gprev : List Bar) (b : Bar) : Option ℚ :=
  match gprev.getLast? with
  | none => none
  | some p => pctChange p.close b.close

/-- The `price_return` column restricted to one group `g` (in frame
order), positions `1, …, g.length - 1`: consecutive close-to-close
pct-changes. -/
def pairwiseReturns (g : List Bar) : List (Option ℚ) :=
  List.zipWith (fun a b => pctChange a.close b.close) g g.tail

/-- The non-`NaN` returns of a group (what a pandas windowed aggregation
actually aggregates: `NaN` entries are skipped). -/
def definedReturns (g : List Bar) : List ℚ := (pairwiseReturns g).filterMap id

/-- Sample variance with the `n - 1` denominator (`ddof=1`), the square
of what `Series.expanding().std()` computes on `n ≥ 2` observations. -/
def sampleVar (xs : List ℚ) : ℚ :=
  ((xs.map fun x => (x - xs.sum / (xs.length : ℚ)) ^ 2).sum) / ((xs.length : ℚ) - 1)

/-- `expanding().std()` over the list of non-`NaN` observations seen so
far: `NaN` (`none`) while fewer than two observations exist, otherwise
the sample standard deviation. -/
noncomputable def stdOfReturns (rets : List ℚ) : Option ℝ :=
  if rets.length < 2 then none else some (Real.sqrt (sampleVar rets))

/-- A row of the frame returned by `compute_features`: the `Bar` columns
followed by the feature columns in assignment order (lines 113-136), the
intermediate `pv` / `cumulative_pv` columns having been dropped
(line 139).  `macro_event_day` is the 0/1 integer produced by
`.astype(int)`. -/
structure Row where
  symbol : String
  timestamp : ℕ
  date : ℕ
  time : ℕ
  hour : ℚ
  day_of_week : ℕ
  open_price : ℚ
  high : ℚ
  low : ℚ
  close : ℚ
  volume : ℚ
  cumulative_volume : ℚ
  price_return : Option ℚ
  intraday_volatility : Option ℝ
  price_trend : ℚ
  time_of_day : ℚ
  macro_event_day : ℕ
  vwap : Option ℚ
  vwap_deviation : Option ℚ

/-- The `(symbol, date)` key of an output row. -/
def rowKey (r : Row) : String × ℕ := (r.symbol, r.date)

/-- The feature columns of one row, given the bar `b` and its in-group
predecessors `gprev` (the earlier frame rows with the same
`(symbol, date)` key, in frame order).  Each field embeds one columnar
assignment of `compute_features` (lines 113-136):

* `cumulative_volume`: `groupby(key)['volume'].cumsum()`;
* `price_return`: `groupby(key)['close'].pct_change()`;
* `intraday_volatility`:
  `groupby(key)['price_return'].transform(lambda x: x.expanding().std())`;
* `price_trend`: `close - groupby(key)['open'].transform('first')`
  (the group's first row is the head of `gprev ++ [b]`);
* `time_of_day`: copy of `hour`;
* `macro_event_day`: `date.isin(macro_dates).astype(int)`;
* `vwap`: `cumulative_pv / cumulative_volume`, where `pv = close*volume`;
  the float quotient is `NaN` exactly when `0/0`;
* `vwap_deviation`: `close - vwap` (`NaN` propagates). -/
noncomputable def mkRow (macroDates : List ℕ) (gprev : List Bar) (b : Bar) : Row :=
  let g := gprev ++ [b]
  let cumvol := (g.map Bar.volume).sum
  let cumpv := (g.map fun x => x.close * x.volume).sum
  let vwapVal : Option ℚ := if cumvol = 0 ∧ cumpv = 0 then none else some (cumpv / cumvol)
  { symbol := b.symbol, timestamp := b.timestamp, date := b.date, time := b.time,
    hour := b.hour, day_of_week := b.day_of_week, open_price := b.open_price,
    high := b.high, low := b.low, close := b.close, volume := b.volume,
    cumulative_volume := cumvol,
    price_return := retStep gprev b,
    intraday_volatility := stdOfReturns (definedReturns g),
    price_trend := b.close - (gprev.headD b).open_price,
    time_of_day := b.hour,
    macro_event_day := if b.date ∈ macroDates then 1 else 0,
    vwap := vwapVal,
    vwap_deviation := vwapVal.map fun w => b.close - w }

/-- Boolean test for membership in the `(symbol, date)` group with key
`k`. -/
def sameKey (k : String × ℕ) (x : Bar) : Bool := decide (barKey x = k)

/-- The rows of the frame `l` strictly before position `j` that belong to
the group with key `k`, in frame order. -/
def groupTo (l : List Bar) (j : ℕ) (k : String × ℕ) : List Bar :=
  (l.take j).filter (sameKey k)

/-- The enriched row at position `i` of the (sorted) frame `l`: the
columnar group-by operations evaluated at that row. -/
noncomputable def enrichRow (macroDates : List ℕ) (l : List Bar) (i : Fin l.length) : Row :=
  mkRow macroDates (groupTo l i.val (barKey (l.get i))) (l.get i)

/-- The full enriched frame (before `dropna`), in frame order. -/
noncomputable def enrich (macroDates : List ℕ) (l : List Bar) : List Row :=
  (List.finRange l.length).map (enrichRow macroDates l)

/-- `dropna()` (line 139): a row survives iff none of its derived values
is `NaN`.  (The bar columns and the remaining derived columns are never
`NaN`.) -/
def dropnaRow (r : Row) : Bool :=
  r.price_return.isSome && r.intraday_volatility.isSome && r.vwap.isSome && r.vwap_deviation.isSome

/-- `compute_features` (lines 109-139): sort the frame by
`(symbol, timestamp)`, compute every feature column by group, drop the
intermediate `pv` / `cumulative_pv` columns and the rows containing
`NaN`s.  The macro-event date table (a module-level global in the
script) is passed as the `macroDates` parameter. -/
noncomputable def compute_features (macroDates : List ℕ) (df : List Bar) : List Row :=
  (enrich macroDates (sortBars df)).filter dropnaRow

/-- The hardcoded `macro_event_dates` list (lines 61-69), encoded as day
counts since 1970-01-01: 2024-01-11, 2024-01-31, 2024-02-02, 2024-02-13,
2024-03-01, 2024-03-12, 2024-03-20. -/
def macro_event_dates : List ℕ := [19733, 19753, 19755, 19766, 19783, 19794, 19802]

/-- The `price_return` values "seen so far": the non-`NaN` entries of the
`price_return` column among the first `j` rows of the enriched frame that
belong to the group with key `k`, in frame order. -/
noncomputable def returnsSoFar (macroDates : List ℕ) (l : List Bar) (j : ℕ) (k : String × ℕ) : List ℚ :=
  ((((enrich macroDates l).take j).filter fun r => decide (rowKey r = k)).filterMap Row.price_return)

/-- `pd.to_datetime(date).year` (line 154): the proleptic-Gregorian year
of a day count since 1970-01-01 (civil-from-days arithmetic). -/
def yearOf (z : ℕ) : ℕ :=
  let zd := z + 719468
  let era := zd / 146097
  let doe := zd % 146097
  let yoe := (doe - doe / 1460 + doe / 36524 - doe / 146096) / 365
  let doy := doe - (365 * yoe + yoe / 4 - yoe / 100)
  let mp := (5 * doy + 2) / 153
  if 10 ≤ mp then yoe + era * 400 + 1 else yoe + era * 400

/-- The outcome of the body of the per-date loop of `process_symbol`
(lines 147-165) for one date: the fetch raised (caught by the
`except` clause), or returned an empty frame (`continue`), or returned
bars that were enriched. -/
inductive DateResult where
  | skipped : DateResult
  | enriched : List Row → DateResult
  | failed : String → DateResult

/-- One iteration of the per-date loop: `get_intraday_ohlcv` either
raises (`Except.error`) or returns a frame; an empty frame is skipped,
a non-empty one is enriched by `compute_features`. -/
noncomputable def processDate (fetch : ℕ → Except String (List Bar)) (macroDates : List ℕ)
    (d : ℕ) : DateResult :=
  match fetch d with
  | Except.error e => DateResult.failed e
  | Except.ok df => if df = [] then DateResult.skipped else DateResult.enriched (compute_features macroDates df)

/-- `process_symbol` (lines 142-165): iterate the calendar dates in
order; collect each enriched day's rows into `year_data` (modelled as
the date-ordered list of `(year, rows)` chunks) and each caught per-date
failure into the diagnostic log (modelled as the list of printed
`(symbol, date, error)` records). -/
noncomputable def process_symbol (symbol : String) (fetch : ℕ → Except String (List Bar))
    (macroDates : List ℕ) : List ℕ → List (ℕ × List Row) × List (String × ℕ × String)
  | [] => ([], [])
  | d :: ds =>
    let rest := process_symbol symbol fetch macroDates ds
    match processDate fetch macroDates d with
    | DateResult.skipped => rest
    | DateResult.enriched rows => ((yearOf d, rows) :: rest.1, rest.2)
    | DateResult.failed e => (rest.1, (symbol, d, e) :: rest.2)

/-- The chunk contributed by a single date, as a function of that date's
fetch result alone. -/
noncomputable def chunkOf (fetch : ℕ → Except String (List Bar)) (macroDates : List ℕ)
    (d : ℕ) : Option (ℕ × List Row) :=
  match processDate fetch macroDates d with
  | DateResult.enriched rows => some (yearOf d, rows)
  | _ => none

/-- The log record contributed by a single date, as a function of that
date's fetch result alone. -/
noncomputable def logOf (symbol : String) (fetch : ℕ → Except String (List Bar))
    (macroDates : List ℕ) (d : ℕ) : Option (String × ℕ × String) :=
  match processDate fetch macroDates d with
  | DateResult.failed e => some (symbol, d, e)
  | _ => none

/-- `time.sleep(1.1)` (line 161), in seconds. -/
def sleepSecs : ℚ := 11 / 10

/-- Whether the per-date loop body reaches the `time.sleep(1.1)` call for
date `d`: only when the fetch returned without raising *and* the frame
was non-empty (on the empty-frame path `continue` skips the sleep, and a
raise jumps to `except`). -/
def reachesSleep (fetch : ℕ → Except String (List Bar)) (d : ℕ) : Bool :=
  match fetch d with
  | Except.error _ => false
  | Except.ok df => !df.isEmpty

/-- Virtual-clock model of the per-date loop of `process_symbol`: the
returned list gives the instant at which each date's fetch is issued.
`dur d ≥ 0` is the (externally determined) duration of the fetch call for
date `d`; every other statement of the loop body is given duration zero,
so the produced instants are lower bounds on the real elapsed times.  The
clock advances by `sleepSecs` exactly on the paths that execute
`time.sleep(1.1)`. -/
def fetchTimes (fetch : ℕ → Except String (List Bar)) (dur : ℕ → ℚ) (t0 : ℚ) :
    List ℕ → List ℚ
  | [] => []
  | d :: ds =>
    t0 :: fetchTimes fetch dur (t0 + dur d + (if reachesSleep fetch d then sleepSecs else 0)) ds

/-- The column list of the frame returned by `get_intraday_ohlcv`
(line 106). -/
def get_intraday_ohlcv_columns : List String :=
  ["symbol", "timestamp", "date", "time", "hour", "day_of_week",
   "open", "high", "low", "close", "volume"]

/-- The feature columns appended by `compute_features`, in assignment
order (lines 113-136): pandas appends a new column at the end of the
frame on first assignment. -/
def compute_features_added_columns : List String :=
  ["cumulative_volume", "price_return", "intraday_volatility", "price_trend",
   "time_of_day", "macro_event_day", "pv", "cumulative_pv", "vwap", "vwap_deviation"]

/-- The intermediate columns dropped on line 139. -/
def compute_features_dropped_columns : List String := ["pv", "cumulative_pv"]

/-- The schema transformation of `compute_features`: append the feature
columns, then drop `pv` and `cumulative_pv`. -/
def compute_features_columns (cols : List String) : List String :=
  (cols ++ compute_features_added_columns).filter fun c => !compute_features_dropped_columns.contains c

/-- The column list of every chunk written by `process_symbol`: the
enriched frames are concatenated per year and written unchanged
(lines 167-172), so every output file carries the `compute_features`
schema of the `get_intraday_ohlcv` frame. -/
def output_columns : List String := compute_features_columns get_intraday_ohlcv_columns

/-- Modelled from the spec: the column list asserted by the output
contract, "symbol, timestamp, date, time, time_of_day (hour as decimal),
day_of_week, open, high, low, close, volume, cumulative_volume,
price_return, intraday_volatility, price_trend, macro flags (one column
per category) plus macro_event_day, vwap, vwap_deviation" — in this code
variant the macro table is a single flat date list that produces no
per-category column, so the claimed list carries `macro_event_day`
alone. -/
def claimed_columns : List String :=
  ["symbol", "timestamp", "date", "time", "time_of_day", "day_of_week",
   "open", "high", "low", "close", "volume", "cumulative_volume",
   "price_return", "intraday_volatility", "price_trend", "macro_event_day",
   "vwap", "vwap_deviation"]

/-! ### Concrete data used by the witness theorems -/

/-- A one-day, one-symbol frame of three 5-minute bars (volumes 100, 150,
200), timestamps 9:30, 9:35, 9:40 on day 0. -/
def wBar1 : Bar := mkBar "AAPL" 34200000 10 10 10 10 100

def wBar2 : Bar := mkBar "AAPL" 34500000 10 11 10 (51 / 5) 150

def wBar3 : Bar := mkBar "AAPL" 34800000 10 11 9 (99 / 10) 200

def wdf : List Bar := [wBar1, wBar2, wBar3]

/-- A frame consisting of a single zero-volume bar. -/
def wzBar : Bar := mkBar "AAPL" 34200000 10 10 10 10 0

def wzdf : List Bar := [wzBar]

/-- An unsorted two-bar frame (timestamps out of order). -/
def wudf : List Bar := [wBar2, wBar1]

/-! ### Helper lemmas -/

theorem take_succ_getElem {α : Type _} (l : List α) (i : ℕ) (h : i < l.length) :
    l.take (i + 1) = l.take i ++ [l.get ⟨i, h⟩] := by
  rw [List.take_succ, List.getElem?_eq_getElem h]
  rfl

theorem take_prefix_of_le {α : Type _} (l : List α) {i j : ℕ} (hij : i ≤ j) :
    l.take i <+: l.take j := by
  have h : l.take i = (l.take j).take i := by rw [List.take_take, min_eq_left hij]
  rw [h]
  exact List.take_prefix i (l.take j)

theorem groupTo_mono (l : List Bar) {i j : ℕ} (hij : i ≤ j) (k : String × ℕ) :
    groupTo l i k <+: groupTo l j k :=
  List.IsPrefix.filter (sameKey k) (take_prefix_of_le l hij)

theorem groupTo_succ (l : List Bar) (i : ℕ) (h : i < l.length) (k : String × ℕ)
    (hk : sameKey k (l.get ⟨i, h⟩) = true) :
    groupTo l (i + 1) k = groupTo l i k ++ [l.get ⟨i, h⟩] := by
  unfold groupTo
  rw [take_succ_getElem l i h, List.filter_append]
  rw [List.get_eq_getElem] at hk
  simp [hk]

theorem groupTo_eq_nil (l : List Bar) (i : ℕ) (hi : i ≤ l.length) (k : String × ℕ)
    (hfirst : ∀ t : Fin l.length, t.val < i → barKey (l.get t) ≠ k) :
    groupTo l i k = [] := by
  unfold groupTo
  rw [List.filter_eq_nil_iff]
  intro a ha
  obtain ⟨n, hn, hget⟩ := List.mem_iff_getElem.1 ha
  have hnl : n < i := lt_of_lt_of_le hn (by rw [List.length_take]; exact min_le_left _ _)
  have hna : n < l.length := lt_of_lt_of_le hnl hi
  have : a = l.get ⟨n, hna⟩ := by
    rw [← hget, List.getElem_take, List.get_eq_getElem]
  subst this
  simp only [sameKey, decide_eq_true_eq]
  exact hfirst ⟨n, hna⟩ hnl

theorem mem_of_mem_groupTo {l : List Bar} {i : ℕ} {k : String × ℕ} {x : Bar}
    (hx : x ∈ groupTo l i k) : x ∈ l :=
  List.mem_of_mem_take (List.mem_filter.1 hx).1

theorem length_enrich (m : List ℕ) (l : List Bar) : (enrich m l).length = l.length := by
  simp [enrich]

theorem get_enrich (m : List ℕ) (l : List Bar) (i : ℕ) (h : i < l.length)
    (h' : i < (enrich m l).length) :
    (enrich m l).get ⟨i, h'⟩ = enrichRow m l ⟨i, h⟩ := by
  simp [enrich, List.get_eq_getElem, List.getElem_map, List.getElem_finRange]

theorem rowKey_enrichRow (m : List ℕ) (l : List Bar) (i : Fin l.length) :
    rowKey (enrichRow m l i) = barKey (l.get i) := rfl

theorem sameKey_self (l : List Bar) (i : Fin l.length) :
    sameKey (barKey (l.get i)) (l.get ⟨i.val, i.isLt⟩) = true := by
  simp [sameKey]

theorem cumulative_volume_enrichRow (m : List ℕ) (l : List Bar) (i : Fin l.length) :
    (enrichRow m l i).cumulative_volume =
      ((groupTo l (i.val + 1) (barKey (l.get i))).map Bar.volume).sum := by
  rw [groupTo_succ l i.val i.isLt _ (sameKey_self l i)]
  rfl

theorem price_trend_enrichRow (m : List ℕ) (l : List Bar) (i : Fin l.length) :
    (enrichRow m l i).price_trend =
      (l.get i).close - ((groupTo l i.val (barKey (l.get i))).headD (l.get i)).open_price := rfl

theorem price_return_enrichRow (m : List ℕ) (l : List Bar) (i : Fin l.length) :
    (enrichRow m l i).price_return = retStep (groupTo l i.val (barKey (l.get i))) (l.get i) := rfl

theorem volatility_enrichRow (m : List ℕ) (l : List Bar) (i : Fin l.length) :
    (enrichRow m l i).intraday_volatility =
      stdOfReturns (definedReturns (groupTo l (i.val + 1) (barKey (l.get i)))) := by
  rw [groupTo_succ l i.val i.isLt _ (sameKey_self l i)]
  rfl

theorem macro_enrichRow (m : List ℕ) (l : List Bar) (i : Fin l.length) :
    (enrichRow m l i).macro_event_day = if (l.get i).date ∈ m then 1 else 0 := rfl

theorem compute_features_eq (m : List ℕ) (df l : List Bar) (hl : sortBars df = l) :
    compute_features m df = (enrich m l).filter dropnaRow := by
  rw [compute_features, hl]

theorem mem_compute_features (m : List ℕ) (df l : List Bar) (hl : sortBars df = l)
    {r : Row} (hr : r ∈ compute_features m df) :
    ∃ i : Fin l.length, r = enrichRow m l i ∧ dropnaRow r = true := by
  rw [compute_features_eq m df l hl] at hr
  have hd := (List.mem_filter.1 hr).2
  have hm := (List.mem_filter.1 hr).1
  obtain ⟨i, _, hi⟩ := List.mem_map.1 hm
  exact ⟨i, hi.symm, hd⟩

theorem sum_mem_eq_zero {l : List ℚ} (h : ∀ x ∈ l, 0 ≤ x) (hs : l.sum = 0) :
    ∀ x ∈ l, x = 0 := by
  induction l with
  | nil => simp
  | cons a t ih =>
    simp only [List.sum_cons] at hs
    have ha : 0 ≤ a := h a (by simp)
    have ht : 0 ≤ t.sum := List.sum_nonneg (fun x hx => h x (List.mem_cons_of_mem _ hx))
    have ha0 : a = 0 := le_antisymm (by linarith) ha
    intro x hx
    rcases List.mem_cons.1 hx with rfl | hx
    · exact ha0
    · exact ih (fun y hy => h y (List.mem_cons_of_mem _ hy)) (by linarith) x hx

theorem vols_nonneg (df l : List Bar) (hl : sortBars df = l)
    (hvol : ∀ b ∈ df, 0 ≤ b.volume) : ∀ b ∈ l, 0 ≤ b.volume := by
  intro b hb
  have hperm : l.Perm df := hl ▸ List.mergeSort_perm df barLE
  exact hvol b (hperm.mem_iff.1 hb)

theorem pairwiseReturns_concat (g : List Bar) (b : Bar) (hg : g ≠ []) :
    pairwiseReturns (g ++ [b]) = pairwiseReturns g ++ [retStep g b] := by
  induction g with
  | nil => exact absurd rfl hg
  | cons a tl ih =>
    cases tl with
    | nil => rfl
    | cons c tl' =>
      have h1 : pairwiseReturns ((a :: c :: tl') ++ [b]) =
          pctChange a.close c.close :: pairwiseReturns ((c :: tl') ++ [b]) := rfl
      have h2 : pairwiseReturns (a :: c :: tl') =
          pctChange a.close c.close :: pairwiseReturns (c :: tl') := rfl
      have h3 : retStep (a :: c :: tl') b = retStep (c :: tl') b := by
        unfold retStep
        rw [List.getLast?_cons_cons]
      rw [h1, ih (by simp), h2, h3, List.cons_append]

theorem definedReturns_concat (g : List Bar) (b : Bar) :
    definedReturns (g ++ [b]) = definedReturns g ++ (retStep g b).toList := by
  cases g with
  | nil => rfl
  | cons a tl =>
    unfold definedReturns
    rw [pairwiseReturns_concat (a :: tl) b (by simp), List.filterMap_append]
    congr 1

theorem length_pairwiseReturns (g : List Bar) : (pairwiseReturns g).length = g.length - 1 := by
  unfold pairwiseReturns
  rw [List.length_zipWith, List.length_tail]
  exact min_eq_right (Nat.sub_le _ _)

/-- Bridge between the `price_return` column of the enriched frame and
the consecutive close-to-close changes of the group's bars: the non-`NaN`
`price_return` values among the first `j` rows of a group are exactly the
defined pairwise returns of the group's first `j`-rows bar list. -/
theorem returnsSoFar_eq (m : List ℕ) (l : List Bar) (k : String × ℕ) :
    ∀ j, j ≤ l.length → returnsSoFar m l j k = definedReturns (groupTo l j k) := by
  intro j
  induction j with
  | zero => intro _; rfl
  | succ j ih =>
    intro hj
    have hjl : j < l.length := hj
    have hje : j < (enrich m l).length := by rw [length_enrich]; exact hjl
    have htake : (enrich m l).take (j + 1) =
        (enrich m l).take j ++ [enrichRow m l ⟨j, hjl⟩] := by
      rw [take_succ_getElem (enrich m l) j hje, get_enrich m l j hjl hje]
    unfold returnsSoFar
    rw [htake, List.filter_append, List.filterMap_append]
    by_cases hk : barKey (l.get ⟨j, hjl⟩) = k
    · have hrk : decide (rowKey (enrichRow m l ⟨j, hjl⟩) = k) = true := by
        rw [rowKey_enrichRow, hk]; simp
      have hsk : sameKey k (l.get ⟨j, hjl⟩) = true := by
        simp only [sameKey, decide_eq_true_eq]
        exact hk
      rw [groupTo_succ l j hjl k hsk, definedReturns_concat]
      have hfil : List.filter (fun r => decide (rowKey r = k)) [enrichRow m l ⟨j, hjl⟩] =
          [enrichRow m l ⟨j, hjl⟩] := by
        simp [List.filter_cons, hrk]
      rw [hfil]
      have hret : List.filterMap Row.price_return [enrichRow m l ⟨j, hjl⟩] =
          (retStep (groupTo l j k) (l.get ⟨j, hjl⟩)).toList := by
        rw [List.filterMap_cons, List.filterMap_nil, price_return_enrichRow, hk]
        cases retStep (groupTo l j k) (l.get ⟨j, hjl⟩) <;> rfl
      rw [hret, ← ih (le_of_lt hjl)]
      rfl
    · have hrk : decide (rowKey (enrichRow m l ⟨j, hjl⟩) = k) = false := by
        rw [rowKey_enrichRow]
        simpa using hk
      have hsk : sameKey k (l.get ⟨j, hjl⟩) = false := by
        simp only [sameKey, decide_eq_false_iff_not]
        exact hk
      rw [List.get_eq_getElem] at hsk
      have hg : groupTo l (j + 1) k = groupTo l j k := by
        unfold groupTo
        rw [take_succ_getElem l j hjl, List.filter_append]
        simp [List.filter_cons, hsk]
      have hfil : List.filter (fun r => decide (rowKey r = k)) [enrichRow m l ⟨j, hjl⟩] =
          [] := by
        simp [List.filter_cons, hrk]
      rw [hg, hfil]
      simpa using ih (le_of_lt hjl)

theorem barLE_of_same_symbol {a b : Bar} (h : a.symbol = b.symbol)
    (ht : a.timestamp ≤ b.timestamp) : barLE a b = true := by
  simp only [barLE, Bool.or_eq_true, Bool.and_eq_true, decide_eq_true_eq]
  exact Or.inr ⟨h, ht⟩

theorem vwap_enrichRow (m : List ℕ) (l : List Bar) (i : Fin l.length) :
    (enrichRow m l i).vwap =
      (if ((groupTo l (i.val + 1) (barKey (l.get i))).map Bar.volume).sum = 0 ∧
          ((groupTo l (i.val + 1) (barKey (l.get i))).map fun x => x.close * x.volume).sum = 0
       then none
       else some (((groupTo l (i.val + 1) (barKey (l.get i))).map fun x => x.close * x.volume).sum /
          ((groupTo l (i.val + 1) (barKey (l.get i))).map Bar.volume).sum)) := by
  rw [groupTo_succ l i.val i.isLt _ (sameKey_self l i)]
  rfl

theorem vwap_deviation_enrichRow (m : List ℕ) (l : List Bar) (i : Fin l.length) :
    (enrichRow m l i).vwap_deviation = (enrichRow m l i).vwap.map fun w => (l.get i).close - w := by
  rfl

/-! ### C1 — cumulative volume is the per-group prefix sum -/

/-- C1: for every input frame and every `(symbol, date)` group of its
sorted form, the `cumulative_volume` of each row equals the prefix sum of
`volume` over the group's rows up to and including that row; with
non-negative volumes it is monotonically non-decreasing along the group,
and at a row with no earlier same-group row (the start of a new group) it
equals that bar's own volume; and every row emitted by `compute_features`
is one of these enriched rows. -/
theorem c1_cumulative_volume_prefix_sum (m : List ℕ) (df l : List Bar)
    (hl : sortBars df = l) (hvol : ∀ b ∈ df, 0 ≤ b.volume) :
    (∀ i : Fin l.length, (enrichRow m l i).cumulative_volume =
        ((groupTo l (i.val + 1) (barKey (l.get i))).map Bar.volume).sum)
    ∧ (∀ i j : Fin l.length, i.val ≤ j.val → barKey (l.get i) = barKey (l.get j) →
        (enrichRow m l i).cumulative_volume ≤ (enrichRow m l j).cumulative_volume)
    ∧ (∀ i : Fin l.length, (∀ t : Fin l.length, t.val < i.val → barKey (l.get t) ≠ barKey (l.get i)) →
        (enrichRow m l i).cumulative_volume = (l.get i).volume)
    ∧ (∀ r ∈ compute_features m df, ∃ i : Fin l.length, r = enrichRow m l i) := by
  have hnn : ∀ b ∈ l, 0 ≤ b.volume := vols_nonneg df l hl hvol
  refine ⟨fun i => cumulative_volume_enrichRow m l i, ?_, ?_, ?_⟩
  · intro i j hij hkey
    rw [cumulative_volume_enrichRow, cumulative_volume_enrichRow, hkey]
    obtain ⟨t, ht⟩ := groupTo_mono l (Nat.succ_le_succ hij) (barKey (l.get j))
    rw [← ht, List.map_append, List.sum_append]
    have hts : 0 ≤ (t.map Bar.volume).sum := by
      refine List.sum_nonneg ?_
      intro x hx
      obtain ⟨b, hb, rfl⟩ := List.mem_map.1 hx
      have hbg : b ∈ groupTo l (j.val + 1) (barKey (l.get j)) := by
        rw [← ht]
        exact List.mem_append_right _ hb
      exact hnn b (mem_of_mem_groupTo hbg)
    linarith
  · intro i hfirst
    have hnil : groupTo l i.val (barKey (l.get i)) = [] :=
      groupTo_eq_nil l i.val (le_of_lt i.isLt) _ (fun t ht => hfirst t ht)
    rw [cumulative_volume_enrichRow,
      groupTo_succ l i.val i.isLt _ (sameKey_self l i), hnil]
    simp [List.get_eq_getElem]
  · intro r hr
    obtain ⟨i, hi, _⟩ := mem_compute_features m df l hl hr
    exact ⟨i, hi⟩

theorem c1_witness :
    sortBars wdf = wdf ∧ (∀ b ∈ wdf, 0 ≤ b.volume) ∧
    ((∀ i : Fin wdf.length, (enrichRow [] wdf i).cumulative_volume =
        ((groupTo wdf (i.val + 1) (barKey (wdf.get i))).map Bar.volume).sum)
    ∧ (∀ i j : Fin wdf.length, i.val ≤ j.val → barKey (wdf.get i) = barKey (wdf.get j) →
        (enrichRow [] wdf i).cumulative_volume ≤ (enrichRow [] wdf j).cumulative_volume)
    ∧ (∀ i : Fin wdf.length, (∀ t : Fin wdf.length, t.val < i.val → barKey (wdf.get t) ≠ barKey (wdf.get i)) →
        (enrichRow [] wdf i).cumulative_volume = (wdf.get i).volume)
    ∧ (∀ r ∈ compute_features [] wdf, ∃ i : Fin wdf.length, r = enrichRow [] wdf i)) := by
  have hsort : sortBars wdf = wdf := by
    refine List.mergeSort_of_sorted ?_
    refine List.Pairwise.cons ?_ (List.Pairwise.cons ?_ (List.pairwise_singleton _ _))
    · intro b hb
      rcases List.mem_cons.1 hb with rfl | hb
      · exact barLE_of_same_symbol rfl (by decide)
      · rw [List.mem_singleton] at hb
        subst hb
        exact barLE_of_same_symbol rfl (by decide)
    · intro b hb
      rw [List.mem_singleton] at hb
      subst hb
      exact barLE_of_same_symbol rfl (by decide)
  have hvol : ∀ b ∈ wdf, 0 ≤ b.volume := by decide
  exact ⟨hsort, hvol, c1_cumulative_volume_prefix_sum [] wdf wdf hsort hvol⟩

/-! ### C2 — zero running volume gives undefined vwap, row excluded -/

/-- C2: for non-negative volumes, a row whose running group volume sum is
exactly zero has `NaN` `vwap` and `vwap_deviation` (the quotient is the
float `0/0`: the running price-times-volume sum is forced to zero as
well, so no division fault arises), and such a row never appears in the
output of `compute_features` (it is removed by `dropna`). -/
theorem c2_zero_volume_vwap_undefined (m : List ℕ) (df l : List Bar)
    (hl : sortBars df = l) (hvol : ∀ b ∈ df, 0 ≤ b.volume) (i : Fin l.length)
    (hzero : (enrichRow m l i).cumulative_volume = 0) :
    (enrichRow m l i).vwap = none ∧ (enrichRow m l i).vwap_deviation = none ∧
      enrichRow m l i ∉ compute_features m df := by
  have hnn : ∀ b ∈ l, 0 ≤ b.volume := vols_nonneg df l hl hvol
  have hcv : ((groupTo l (i.val + 1) (barKey (l.get i))).map Bar.volume).sum = 0 := by
    rw [← cumulative_volume_enrichRow]
    exact hzero
  have hallz : ∀ b ∈ groupTo l (i.val + 1) (barKey (l.get i)), b.volume = 0 := by
    intro b hb
    refine sum_mem_eq_zero ?_ hcv b.volume (List.mem_map_of_mem _ hb)
    intro x hx
    obtain ⟨c, hc, rfl⟩ := List.mem_map.1 hx
    exact hnn c (mem_of_mem_groupTo hc)
  have hcpv : ((groupTo l (i.val + 1) (barKey (l.get i))).map fun x => x.close * x.volume).sum = 0 := by
    refine List.sum_eq_zero ?_
    intro x hx
    obtain ⟨c, hc, rfl⟩ := List.mem_map.1 hx
    rw [hallz c hc, mul_zero]
  have hvw : (enrichRow m l i).vwap = none := by
    rw [vwap_enrichRow, if_pos ⟨hcv, hcpv⟩]
  refine ⟨hvw, ?_, ?_⟩
  · rw [vwap_deviation_enrichRow, hvw]
    rfl
  · intro hmem
    rw [compute_features_eq m df l hl] at hmem
    have hd := (List.mem_filter.1 hmem).2
    rw [dropnaRow] at hd
    simp only [hvw, Option.isSome_none, Bool.false_and, Bool.and_false] at hd
    exact Bool.false_ne_true hd

theorem c2_witness :
    sortBars wzdf = wzdf ∧ (∀ b ∈ wzdf, 0 ≤ b.volume) ∧
    (enrichRow [] wzdf ⟨0, Nat.zero_lt_one⟩).cumulative_volume = 0 ∧
    ((enrichRow [] wzdf ⟨0, Nat.zero_lt_one⟩).vwap = none ∧
     (enrichRow [] wzdf ⟨0, Nat.zero_lt_one⟩).vwap_deviation = none ∧
     enrichRow [] wzdf ⟨0, Nat.zero_lt_one⟩ ∉ compute_features [] wzdf) := by
  have hsort : sortBars wzdf = wzdf :=
    List.mergeSort_of_sorted (List.pairwise_singleton _ _)
  have hvol : ∀ b ∈ wzdf, 0 ≤ b.volume := by decide
  have hzero : (enrichRow [] wzdf ⟨0, Nat.zero_lt_one⟩).cumulative_volume = 0 := by
    simp [enrichRow, mkRow, groupTo, wzdf, wzBar, mkBar]
  exact ⟨hsort, hvol, hzero,
    c2_zero_volume_vwap_undefined [] wzdf wzdf hsort hvol ⟨0, Nat.zero_lt_one⟩ hzero⟩

/-! ### C3 — intraday volatility is the expanding sample std of returns -/

/-- C3: the `intraday_volatility` of each row is `NaN` on the group's
first two bars (at most one return exists there), and in general it is
the sample standard deviation — square root of the `n − 1`-denominator
`sampleVar` — of the non-`NaN` `price_return` values seen so far in the
group, the current bar's return included, with `NaN` while fewer than two
such returns exist. -/
theorem c3_intraday_volatility_expanding_std (m : List ℕ) (df l : List Bar)
    (hl : sortBars df = l) (i : Fin l.length) :
    ((groupTo l (i.val + 1) (barKey (l.get i))).length ≤ 2 →
      (enrichRow m l i).intraday_volatility = none)
    ∧ (enrichRow m l i).intraday_volatility =
        (if (returnsSoFar m l (i.val + 1) (barKey (l.get i))).length < 2 then none
         else some (Real.sqrt (sampleVar (returnsSoFar m l (i.val + 1) (barKey (l.get i)))))) := by
  have hb := returnsSoFar_eq m l (barKey (l.get i)) (i.val + 1) (Nat.succ_le_of_lt i.isLt)
  constructor
  · intro hlen
    rw [volatility_enrichRow]
    have h1 : (definedReturns (groupTo l (i.val + 1) (barKey (l.get i)))).length ≤
        (pairwiseReturns (groupTo l (i.val + 1) (barKey (l.get i)))).length :=
      List.length_filterMap_le _ _
    rw [length_pairwiseReturns] at h1
    unfold stdOfReturns
    rw [if_pos (by omega)]
  · rw [volatility_enrichRow, hb]
    rfl

theorem c3_witness :
    sortBars wdf = wdf ∧
    (((groupTo wdf (2 + 1) (barKey (wdf.get ⟨2, by decide⟩))).length ≤ 2 →
      (enrichRow [] wdf ⟨2, by decide⟩).intraday_volatility = none)
    ∧ (enrichRow [] wdf ⟨2, by decide⟩).intraday_volatility =
        (if (returnsSoFar [] wdf (2 + 1) (barKey (wdf.get ⟨2, by decide⟩))).length < 2 then none
         else some (Real.sqrt (sampleVar (returnsSoFar [] wdf (2 + 1) (barKey (wdf.get ⟨2, by decide⟩))))))) := by
  have hsort : sortBars wdf = wdf := by
    refine List.mergeSort_of_sorted ?_
    refine List.Pairwise.cons ?_ (List.Pairwise.cons ?_ (List.pairwise_singleton _ _))
    · intro b hb
      rcases List.mem_cons.1 hb with rfl | hb
      · exact barLE_of_same_symbol rfl (by decide)
      · rw [List.mem_singleton] at hb
        subst hb
        exact barLE_of_same_symbol rfl (by decide)
    · intro b hb
      rw [List.mem_singleton] at hb
      subst hb
      exact barLE_of_same_symbol rfl (by decide)
  exact ⟨hsort, c3_intraday_volatility_expanding_std [] wdf wdf hsort ⟨2, by decide⟩⟩

/-! ### C4 — no partially defined row is ever emitted -/

/-- C4: the output of `compute_features` contains no row with an
undefined (`NaN`) derived value — such rows are dropped, never emitted
partially (the model raises no error for them) — and a `(symbol, date)`
group consisting of exactly one bar contributes no output row at all. -/
theorem c4_undefined_rows_dropped (m : List ℕ) (df l : List Bar) (hl : sortBars df = l) :
    (∀ r ∈ compute_features m df,
        r.price_return ≠ none ∧ r.intraday_volatility ≠ none ∧
        r.vwap ≠ none ∧ r.vwap_deviation ≠ none)
    ∧ (∀ k : String × ℕ, df.countP (sameKey k) = 1 →
        ∀ r ∈ compute_features m df, rowKey r ≠ k) := by
  constructor
  · intro r hr
    obtain ⟨i, rfl, hd⟩ := mem_compute_features m df l hl hr
    rw [dropnaRow, Bool.and_eq_true, Bool.and_eq_true, Bool.and_eq_true] at hd
    refine ⟨?_, ?_, ?_, ?_⟩ <;> rw [Option.ne_none_iff_isSome]
    exacts [hd.1.1.1, hd.1.1.2, hd.1.2, hd.2]
  · intro k hk r hr hkey
    obtain ⟨i, rfl, hd⟩ := mem_compute_features m df l hl hr
    have hbk : barKey (l.get i) = k := by
      rw [← rowKey_enrichRow m l i]
      exact hkey
    have hperm : l.Perm df := by
      rw [← hl]
      exact List.mergeSort_perm df barLE
    have hcl : l.countP (sameKey k) = 1 := by
      rw [List.Perm.countP_eq (sameKey k) hperm]
      exact hk
    have hsplit : (l.take i.val).countP (sameKey k) + (l.drop i.val).countP (sameKey k) = 1 := by
      rw [← List.countP_append, List.take_append_drop]
      exact hcl
    have hki : sameKey k (l.get i) = true := by
      simp only [sameKey, decide_eq_true_eq]
      exact hbk
    have hdrop : (l.drop i.val).countP (sameKey k) = (l.drop (i.val + 1)).countP (sameKey k) + 1 := by
      rw [List.drop_eq_getElem_cons i.isLt, List.countP_cons_of_pos]
      rw [← List.get_eq_getElem]
      exact hki
    have htake : ((l.take i.val).filter (sameKey k)).length = 0 := by
      rw [← List.countP_eq_length_filter]
      omega
    have hnil : groupTo l i.val k = [] := by
      unfold groupTo
      exact List.eq_nil_of_length_eq_zero htake
    have hret : (enrichRow m l i).price_return = none := by
      rw [price_return_enrichRow, hbk, hnil]
      rfl
    rw [dropnaRow] at hd
    simp only [hret, Option.isSome_none, Bool.false_and] at hd
    exact Bool.false_ne_true hd

theorem c4_witness :
    sortBars wzdf = wzdf ∧
    ((∀ r ∈ compute_features macro_event_dates wzdf,
        r.price_return ≠ none ∧ r.intraday_volatility ≠ none ∧
        r.vwap ≠ none ∧ r.vwap_deviation ≠ none)
    ∧ (∀ k : String × ℕ, wzdf.countP (sameKey k) = 1 →
        ∀ r ∈ compute_features macro_event_dates wzdf, rowKey r ≠ k)) := by
  have hsort : sortBars wzdf = wzdf :=
    List.mergeSort_of_sorted (List.pairwise_singleton _ _)
  exact ⟨hsort, c4_undefined_rows_dropped macro_event_dates wzdf wzdf hsort⟩

/-! ### C5 — macro_event_day is date membership in the event table -/

/-- C5: a row's `macro_event_day` flag is 1 exactly when the bar's
calendar date belongs to the configured macro-event date collection
(the script's single hardcoded `macro_event_dates` table), 0 when the
date belongs to no such collection; it depends only on the calendar date
(rows with equal dates get equal flags regardless of symbol or
time-of-day); and with an empty event table it is 0 for every row. -/
theorem c5_macro_event_day_membership (m : List ℕ) (df l : List Bar)
    (hl : sortBars df = l) (i : Fin l.length) :
    ((enrichRow m l i).macro_event_day = 1 ↔ (l.get i).date ∈ m)
    ∧ ((l.get i).date ∉ m → (enrichRow m l i).macro_event_day = 0)
    ∧ (∀ j : Fin l.length, (l.get i).date = (l.get j).date →
        (enrichRow m l i).macro_event_day = (enrichRow m l j).macro_event_day)
    ∧ (m = [] → (enrichRow m l i).macro_event_day = 0) := by
  refine ⟨?_, ?_, ?_, ?_⟩
  · rw [macro_enrichRow]
    by_cases h : (l.get i).date ∈ m
    · simp [h]
    · simp [h]
  · intro h
    rw [macro_enrichRow, if_neg h]
  · intro j hdate
    rw [macro_enrichRow, macro_enrichRow, hdate]
  · intro hm
    subst hm
    rw [macro_enrichRow]
    simp

theorem c5_witness :
    sortBars wzdf = wzdf ∧
    (((enrichRow macro_event_dates wzdf ⟨0, Nat.zero_lt_one⟩).macro_event_day = 1 ↔
        (wzdf.get ⟨0, Nat.zero_lt_one⟩).date ∈ macro_event_dates)
    ∧ ((wzdf.get ⟨0, Nat.zero_lt_one⟩).date ∉ macro_event_dates →
        (enrichRow macro_event_dates wzdf ⟨0, Nat.zero_lt_one⟩).macro_event_day = 0)
    ∧ (∀ j : Fin wzdf.length, (wzdf.get ⟨0, Nat.zero_lt_one⟩).date = (wzdf.get j).date →
        (enrichRow macro_event_dates wzdf ⟨0, Nat.zero_lt_one⟩).macro_event_day =
          (enrichRow macro_event_dates wzdf j).macro_event_day)
    ∧ (macro_event_dates = [] →
        (enrichRow macro_event_dates wzdf ⟨0, Nat.zero_lt_one⟩).macro_event_day = 0)) := by
  have hsort : sortBars wzdf = wzdf :=
    List.mergeSort_of_sorted (List.pairwise_singleton _ _)
  exact ⟨hsort,
    c5_macro_event_day_membership macro_event_dates wzdf wzdf hsort ⟨0, Nat.zero_lt_one⟩⟩

/-! ### C6 — price_trend is close minus the group's first open -/

theorem head?_filter_eq_first {α : Type _} (p : α → Bool) :
    ∀ (l : List α) (j : ℕ) (h : j < l.length), p (l.get ⟨j, h⟩) = true →
      (∀ t (ht : t < j), p (l.get ⟨t, lt_trans ht h⟩) = false) →
      (l.filter p).head? = some (l.get ⟨j, h⟩) := by
  intro l
  induction l with
  | nil =>
    intro j h
    exact absurd h (by simp)
  | cons a tl ih =>
    intro j h hp hbefore
    cases j with
    | zero =>
      have hpa : p a = true := hp
      rw [List.filter_cons, if_pos hpa]
      rfl
    | succ j =>
      have ha : p a = false := hbefore 0 (Nat.succ_pos j)
      rw [List.filter_cons, if_neg (by rw [ha]; exact Bool.false_ne_true)]
      exact ih j (Nat.lt_of_succ_lt_succ h) hp
        (fun t ht => hbefore (t + 1) (Nat.succ_lt_succ ht))

/-- C6: the `price_trend` of every row equals the bar's close minus the
open of the first bar of the row's `(symbol, date)` group (the earliest
same-key row of the sorted frame). -/
theorem c6_price_trend_first_open (m : List ℕ) (df l : List Bar) (hl : sortBars df = l)
    (i j : Fin l.length) (hij : j.val ≤ i.val)
    (hkey : barKey (l.get j) = barKey (l.get i))
    (hfirst : ∀ t : Fin l.length, t.val < j.val → barKey (l.get t) ≠ barKey (l.get i)) :
    (enrichRow m l i).price_trend = (l.get i).close - (l.get j).open_price := by
  rw [price_trend_enrichRow]
  have hheadD : (groupTo l i.val (barKey (l.get i))).headD (l.get i) = l.get j := by
    rcases eq_or_lt_of_le hij with heq | hlt
    · have hje : j = i := Fin.ext heq
      subst hje
      have hnil : groupTo l j.val (barKey (l.get j)) = [] :=
        groupTo_eq_nil l j.val (le_of_lt j.isLt) _ (fun t ht => hfirst t ht)
      rw [hnil]
      rfl
    · have hlen : j.val < (l.take i.val).length := by
        rw [List.length_take]
        exact lt_min hlt (lt_trans hlt i.isLt)
      have hget : (l.take i.val).get ⟨j.val, hlen⟩ = l.get j := by
        simp [List.get_eq_getElem, List.getElem_take]
      have hhead : ((l.take i.val).filter (sameKey (barKey (l.get i)))).head? =
          some ((l.take i.val).get ⟨j.val, hlen⟩) := by
        refine head?_filter_eq_first _ _ j.val hlen ?_ ?_
        · rw [hget]
          simp only [sameKey, decide_eq_true_eq]
          exact hkey
        · intro t ht
          have htl : t < l.length := lt_trans (lt_trans ht hlt) i.isLt
          have hgt : (l.take i.val).get ⟨t, lt_trans ht hlen⟩ = l.get ⟨t, htl⟩ := by
            simp [List.get_eq_getElem, List.getElem_take]
          rw [hgt]
          simp only [sameKey, decide_eq_false_iff_not]
          exact hfirst ⟨t, htl⟩ ht
      unfold groupTo
      rw [List.headD_eq_head?_getD, hhead, hget]
      rfl
  rw [hheadD]

theorem c6_witness :
    sortBars wdf = wdf ∧ (0 : ℕ) ≤ 2 ∧
    barKey (wdf.get ⟨0, by decide⟩) = barKey (wdf.get ⟨2, by decide⟩) ∧
    (∀ t : Fin wdf.length, t.val < 0 → barKey (wdf.get t) ≠ barKey (wdf.get ⟨2, by decide⟩)) ∧
    (enrichRow [] wdf ⟨2, by decide⟩).price_trend =
      (wdf.get ⟨2, by decide⟩).close - (wdf.get ⟨0, by decide⟩).open_price := by
  have hsort : sortBars wdf = wdf := by
    refine List.mergeSort_of_sorted ?_
    refine List.Pairwise.cons ?_ (List.Pairwise.cons ?_ (List.pairwise_singleton _ _))
    · intro b hb
      rcases List.mem_cons.1 hb with rfl | hb
      · exact barLE_of_same_symbol rfl (by decide)
      · rw [List.mem_singleton] at hb
        subst hb
        exact barLE_of_same_symbol rfl (by decide)
    · intro b hb
      rw [List.mem_singleton] at hb
      subst hb
      exact barLE_of_same_symbol rfl (by decide)
  have hkey : barKey (wdf.get ⟨0, by decide⟩) = barKey (wdf.get ⟨2, by decide⟩) := by decide
  have hfirst : ∀ t : Fin wdf.length, t.val < 0 →
      barKey (wdf.get t) ≠ barKey (wdf.get ⟨2, by decide⟩) := by
    intro t ht
    exact absurd ht (Nat.not_lt_zero _)
  exact ⟨hsort, Nat.zero_le 2, hkey, hfirst,
    c6_price_trend_first_open [] wdf wdf hsort ⟨2, by decide⟩ ⟨0, by decide⟩
      (Nat.zero_le 2) hkey hfirst⟩

/-! ### C7 — purity: determinism holds, but the input frame is mutated -/

theorem barLE_total (a b : Bar) : (barLE a b || barLE b a) = true := by
  simp only [barLE, Bool.or_eq_true, Bool.and_eq_true, decide_eq_true_eq]
  rcases lt_trichotomy a.symbol b.symbol with h | h | h
  · exact Or.inl (Or.inl h)
  · rcases Nat.le_total a.timestamp b.timestamp with ht | ht
    · exact Or.inl (Or.inr ⟨h, ht⟩)
    · exact Or.inr (Or.inr ⟨h.symm, ht⟩)
  · exact Or.inr (Or.inl h)

theorem barLE_trans (a b c : Bar) (hab : barLE a b = true) (hbc : barLE b c = true) :
    barLE a c = true := by
  simp only [barLE, Bool.or_eq_true, Bool.and_eq_true, decide_eq_true_eq] at hab hbc ⊢
  rcases hab with h1 | ⟨h1e, h1t⟩
  · rcases hbc with h2 | ⟨h2e, h2t⟩
    · exact Or.inl (lt_trans h1 h2)
    · exact Or.inl (lt_of_lt_of_eq h1 h2e)
  · rcases hbc with h2 | ⟨h2e, h2t⟩
    · exact Or.inl (lt_of_eq_of_lt h1e h2)
    · exact Or.inr ⟨h1e.trans h2e, le_trans h1t h2t⟩

/-- C7 counterexample: the claim "the input bar sequence it is given is
unchanged after the call" is false — `compute_features` sorts its input
frame in place (`sort_values(..., inplace=True)`, line 110), so after a
call on the unsorted frame `wudf` the caller's frame rows are reordered. -/
theorem c7_counterexample : compute_features_input_after wudf ≠ wudf := by
  intro h
  have hs := List.sorted_mergeSort barLE_trans barLE_total wudf
  rw [show wudf.mergeSort barLE = compute_features_input_after wudf from rfl, h] at hs
  have h12 : barLE wBar2 wBar1 = true := (List.pairwise_cons.1 hs).1 wBar1 (by simp [wudf])
  simp only [barLE, Bool.or_eq_true, Bool.and_eq_true, decide_eq_true_eq] at h12
  rcases h12 with hlt | ⟨_, hle⟩
  · have hss : wBar2.symbol = wBar1.symbol := rfl
    rw [hss] at hlt
    exact lt_irrefl _ hlt
  · exact absurd hle (by decide)

/-- C7 amended: `compute_features` is deterministic with no hidden state
between calls — in particular re-running it on the frame left behind by a
previous call (the in-place-sorted input) yields output identical to the
first call's, and an input frame that is already sorted by
`(symbol, timestamp)` keeps its row order.  However the input frame is
*not* unchanged in general: the call sorts it in place (and appends the
feature columns), as the counterexample shows. -/
theorem c7_deterministic_no_hidden_state (m : List ℕ) (df : List Bar) :
    compute_features m (compute_features_input_after df) = compute_features m df
    ∧ (List.Pairwise (fun a b => barLE a b = true) df →
        compute_features_input_after df = df) := by
  constructor
  · unfold compute_features compute_features_input_after sortBars
    rw [List.mergeSort_of_sorted (List.sorted_mergeSort barLE_trans barLE_total df)]
  · intro hs
    exact List.mergeSort_of_sorted hs

theorem c7_witness :
    List.Pairwise (fun a b => barLE a b = true) wdf ∧
    (compute_features [] (compute_features_input_after wdf) = compute_features [] wdf
     ∧ compute_features_input_after wdf = wdf) := by
  have hp : List.Pairwise (fun a b => barLE a b = true) wdf := by
    refine List.Pairwise.cons ?_ (List.Pairwise.cons ?_ (List.pairwise_singleton _ _))
    · intro b hb
      rcases List.mem_cons.1 hb with rfl | hb
      · exact barLE_of_same_symbol rfl (by decide)
      · rw [List.mem_singleton] at hb
        subst hb
        exact barLE_of_same_symbol rfl (by decide)
    · intro b hb
      rw [List.mem_singleton] at hb
      subst hb
      exact barLE_of_same_symbol rfl (by decide)
  have h := c7_deterministic_no_hidden_state [] wdf
  exact ⟨hp, h.1, h.2 hp⟩

/-! ### C8 — per-date failures are isolated, logged, and skipped -/

/-- C8: the per-symbol loop decomposes date-by-date: each date's
contribution to the output chunks and to the diagnostic log is a function
of that date's fetch result alone, so no date's failure terminates or
perturbs the processing of the remaining dates, and nothing propagates
out (the loop is total).  An empty fetch result contributes neither a
chunk nor a log entry (silently skipped); a raised fetch error
contributes no chunk and is logged with the symbol and date context. -/
theorem c8_per_date_isolation (sym : String) (fetch : ℕ → Except String (List Bar))
    (m : List ℕ) (dates : List ℕ) :
    process_symbol sym fetch m dates =
      (dates.filterMap (chunkOf fetch m), dates.filterMap (logOf sym fetch m))
    ∧ (∀ d, fetch d = Except.ok [] → chunkOf fetch m d = none ∧ logOf sym fetch m d = none)
    ∧ (∀ d e, fetch d = Except.error e →
        chunkOf fetch m d = none ∧ logOf sym fetch m d = some (sym, d, e) ∧
        (d ∈ dates → (sym, d, e) ∈ (process_symbol sym fetch m dates).2)) := by
  have hmain : ∀ ds : List ℕ, process_symbol sym fetch m ds =
      (ds.filterMap (chunkOf fetch m), ds.filterMap (logOf sym fetch m)) := by
    intro ds
    induction ds with
    | nil => rfl
    | cons d ds ih =>
      cases h : processDate fetch m d <;>
        simp [process_symbol, List.filterMap_cons, chunkOf, logOf, h, ih]
  refine ⟨hmain dates, ?_, ?_⟩
  · intro d hd
    constructor
    · unfold chunkOf processDate
      rw [hd]
      rfl
    · unfold logOf processDate
      rw [hd]
      rfl
  · intro d e hd
    have hc : chunkOf fetch m d = none := by
      unfold chunkOf processDate
      rw [hd]
    have hlg : logOf sym fetch m d = some (sym, d, e) := by
      unfold logOf processDate
      rw [hd]
    refine ⟨hc, hlg, ?_⟩
    intro hmem
    rw [hmain dates]
    exact List.mem_filterMap.2 ⟨d, hmem, hlg⟩

theorem c8_witness :
    (fun d => if d = 0 then Except.error "boom" else Except.ok ([] : List Bar)) 0 =
      Except.error "boom" ∧
    (fun d => if d = 0 then Except.error "boom" else Except.ok ([] : List Bar)) 1 =
      Except.ok [] ∧
    (chunkOf (fun d => if d = 0 then Except.error "boom" else Except.ok []) macro_event_dates 1 = none ∧
     logOf "AAPL" (fun d => if d = 0 then Except.error "boom" else Except.ok [])
       macro_event_dates 1 = none) ∧
    (chunkOf (fun d => if d = 0 then Except.error "boom" else Except.ok []) macro_event_dates 0 = none ∧
     logOf "AAPL" (fun d => if d = 0 then Except.error "boom" else Except.ok [])
       macro_event_dates 0 = some ("AAPL", 0, "boom") ∧
     ("AAPL", 0, "boom") ∈ (process_symbol "AAPL"
       (fun d => if d = 0 then Except.error "boom" else Except.ok [])
       macro_event_dates [0, 1]).2) := by
  have h := c8_per_date_isolation "AAPL"
    (fun d => if d = 0 then Except.error "boom" else Except.ok []) macro_event_dates [0, 1]
  refine ⟨rfl, rfl, h.2.1 1 rfl, ?_⟩
  have h3 := h.2.2 0 "boom" rfl
  exact ⟨h3.1, h3.2.1, h3.2.2 (by simp)⟩

/-! ### C9 — the rate-limit wait is skipped after empty/failed dates -/

theorem length_fetchTimes (fetch : ℕ → Except String (List Bar)) (dur : ℕ → ℚ) :
    ∀ (dates : List ℕ) (t0 : ℚ), (fetchTimes fetch dur t0 dates).length = dates.length := by
  intro dates
  induction dates with
  | nil => intro t0; rfl
  | cons d ds ih =>
    intro t0
    simp [fetchTimes, ih]

/-- C9 counterexample: the claim that at least the minimum interval
elapses between *every* pair of consecutive fetch attempts — including
pairs whose earlier date returned empty or failed — is false: on the
empty-result path the `continue` skips `time.sleep(1.1)`, so in the
virtual-clock model (fetch duration 0) the second fetch is issued at the
same instant as the first, a gap of `0 < 1.1` seconds. -/
theorem c9_counterexample :
    (fetchTimes (fun _ => Except.ok []) (fun _ => 0) 0 [0, 1])[0]? = some 0 ∧
    (fetchTimes (fun _ => Except.ok []) (fun _ => 0) 0 [0, 1])[1]? = some 0 ∧
    ¬ sleepSecs ≤ (0 : ℚ) - 0 := by
  refine ⟨rfl, ?_, ?_⟩
  · show (fetchTimes (fun _ => Except.ok []) (fun _ => 0) (0 + 0 + if reachesSleep (fun _ => Except.ok []) 0 then sleepSecs else 0) [1])[0]? = some 0
    norm_num [fetchTimes, reachesSleep]
  · norm_num [sleepSecs]

/-- C9 amended: the pipeline sleeps 1.1 s only after a date that was
fetched successfully with a non-empty frame and enriched; between such a
date's fetch and the next date's fetch at least `sleepSecs = 1.1` seconds
elapse (with non-negative fetch durations), but after an empty or failed
date the next fetch may be issued immediately, as the counterexample
shows. -/
theorem c9_min_interval_after_processed (fetch : ℕ → Except String (List Bar))
    (dur : ℕ → ℚ) (hdur : ∀ d, 0 ≤ dur d) :
    ∀ (dates : List ℕ) (t0 : ℚ) (k : ℕ) (d : ℕ) (t t' : ℚ),
      dates[k]? = some d → reachesSleep fetch d = true →
      (fetchTimes fetch dur t0 dates)[k]? = some t →
      (fetchTimes fetch dur t0 dates)[k + 1]? = some t' →
      sleepSecs ≤ t' - t := by
  intro dates
  induction dates with
  | nil =>
    intro t0 k d t t' hk
    simp at hk
  | cons d0 ds ih =>
    intro t0 k d t t' hk hproc ht ht'
    cases k with
    | zero =>
      have hd0 : d0 = d := by simpa using hk
      subst hd0
      rw [fetchTimes] at ht
      simp only [List.getElem?_cons_zero, Option.some_inj] at ht
      rw [fetchTimes] at ht'
      simp only [hproc, if_true, List.getElem?_cons_succ] at ht'
      cases ds with
      | nil => simp [fetchTimes] at ht'
      | cons d1 ds' =>
        rw [fetchTimes] at ht'
        simp only [List.getElem?_cons_zero, Option.some_inj] at ht'
        have hd := hdur d0
        rw [← ht', ← ht]
        linarith
    | succ k =>
      have hk' : ds[k]? = some d := by simpa using hk
      have ht'' : (fetchTimes fetch dur
          (t0 + dur d0 + if reachesSleep fetch d0 then sleepSecs else 0) ds)[k]? = some t := by
        simpa [fetchTimes] using ht
      have ht''' : (fetchTimes fetch dur
          (t0 + dur d0 + if reachesSleep fetch d0 then sleepSecs else 0) ds)[k + 1]? = some t' := by
        simpa [fetchTimes] using ht'
      exact ih _ k d t t' hk' hproc ht'' ht'''

theorem c9_witness :
    (∀ d : ℕ, (0 : ℚ) ≤ (fun _ => (0 : ℚ)) d) ∧
    ([5, 6] : List ℕ)[0]? = some 5 ∧
    reachesSleep (fun _ => Except.ok [wBar1]) 5 = true ∧
    (fetchTimes (fun _ => Except.ok [wBar1]) (fun _ => 0) 0 [5, 6])[0]? = some 0 ∧
    (fetchTimes (fun _ => Except.ok [wBar1]) (fun _ => 0) 0 [5, 6])[1]? = some (0 + 0 + sleepSecs) ∧
    sleepSecs ≤ (0 + 0 + sleepSecs) - 0 := by
  have hdur : ∀ d : ℕ, (0 : ℚ) ≤ (fun _ => (0 : ℚ)) d := fun _ => le_refl 0
  have h0 : ([5, 6] : List ℕ)[0]? = some 5 := rfl
  have hpr : reachesSleep (fun _ => Except.ok [wBar1]) 5 = true := rfl
  have ht : (fetchTimes (fun _ => Except.ok [wBar1]) (fun _ => 0) 0 [5, 6])[0]? = some 0 := rfl
  have ht' : (fetchTimes (fun _ => Except.ok [wBar1]) (fun _ => 0) 0 [5, 6])[1]? =
      some (0 + 0 + sleepSecs) := by
    show (fetchTimes (fun _ => Except.ok [wBar1]) (fun _ => 0)
        (0 + 0 + if reachesSleep (fun _ => Except.ok [wBar1]) 5 then sleepSecs else 0) [6])[0]? =
      some (0 + 0 + sleepSecs)
    rw [hpr]
    rfl
  exact ⟨hdur, h0, hpr, ht, ht',
    c9_min_interval_after_processed (fun _ => Except.ok [wBar1]) (fun _ => 0) hdur
      [5, 6] 0 0 5 0 (0 + 0 + sleepSecs) h0 hpr ht ht'⟩

/-! ### C10 — output columns: the actual schema keeps `hour` too -/

/-- C10 counterexample: the written tables do not have exactly the
claimed columns — the actual schema also carries the `hour` column
(the frame keeps `hour` *and* its copy `time_of_day`, the latter sitting
after `price_trend`, not between `time` and `day_of_week`). -/
theorem c10_counterexample :
    output_columns ≠ claimed_columns ∧
    "hour" ∈ output_columns ∧ "hour" ∉ claimed_columns := by
  refine ⟨?_, ?_, ?_⟩ <;> decide

/-- C10 amended: every chunk written in a run is a flat table whose
columns are exactly `symbol, timestamp, date, time, hour, day_of_week,
open, high, low, close, volume, cumulative_volume, price_return,
intraday_volatility, price_trend, time_of_day, macro_event_day, vwap,
vwap_deviation`, in that order — the `pv` / `cumulative_pv` intermediates
are dropped, but `hour` stays alongside its copy `time_of_day`.  Column
order and presence are identical across all chunks of a run: every
chunk's schema is the constant `output_columns` (all rows share the
single `Row` record). -/
theorem c10_output_columns :
    output_columns =
      ["symbol", "timestamp", "date", "time", "hour", "day_of_week",
       "open", "high", "low", "close", "volume", "cumulative_volume",
       "price_return", "intraday_volatility", "price_trend", "time_of_day",
       "macro_event_day", "vwap", "vwap_deviation"] ∧
    compute_features_columns get_intraday_ohlcv_columns = output_columns := by
  exact ⟨by decide, rfl⟩

end DataCollection
